import Mathlib

/-!
Verification of the `bitvec-sgx` element-level atomic access layer and its
serialization contract.

Storage elements of width `W ∈ {8, 16, 32, 64}` are embedded as natural
numbers below `2 ^ W`.  The four per-width `impl Atomic for AtomicU*` blocks
in `src/atomic.rs` are textually identical up to the width, so they are
embedded once, parameterized by `W`:

  - `clear` is `fetch_and(!mask)`; on a `W`-bit unsigned integer, `!m` is
    `m ^^^ (2 ^ W - 1)`.
  - `set` is `fetch_or(mask)`.
  - `invert` is `fetch_xor(mask)`.
  - `get` is a plain load of the whole element.

The `Cursor` bit-ordering policies and the `BitIdx` constructor live in
source files that are not part of this repository snapshot, so they are
modelled from the spec, as are `encode` and
`decode`.
-/

/-- Modelled from the spec: `BitIdx::new(raw)` for an element of width `W`
succeeds exactly when `raw < W`, rejecting out-of-range indices at
construction time. -/
def BitIdx.new (W raw : Nat) : Option Nat :=
  if raw < W then some raw else none

/-- Modelled from the spec: a `Cursor` is a bit-ordering policy translating a
bit position inside an element of width `W` into a concrete mask value. -/
structure Cursor where
  mask : Nat → Nat → Nat

/-- Modelled from the spec: the LSB-first numbering policy (`LittleEndian`);
position `p` maps to the single-bit mask `2 ^ p`. -/
def LittleEndian : Cursor :=
  ⟨fun _ p => 2 ^ p⟩

/-- Modelled from the spec: the MSB-first numbering policy (`BigEndian`);
position `p` in an element of width `W` maps to the single-bit mask
`2 ^ (W - 1 - p)`. -/
def BigEndian : Cursor :=
  ⟨fun W p => 2 ^ (W - 1 - p)⟩

namespace Atomic

/-- Embedding of `Atomic::clear` from `src/atomic.rs`:
`self.fetch_and(!*C::mask(bit), Ordering::Relaxed)`.  Bitwise NOT of the
`W`-bit mask is XOR with `2 ^ W - 1`. -/
def clear (W : Nat) (C : Cursor) (v p : Nat) : Nat :=
  v &&& (C.mask W p ^^^ (2 ^ W - 1))

/-- Embedding of `Atomic::set` from `src/atomic.rs`:
`self.fetch_or(*C::mask(bit), Ordering::Relaxed)`. -/
def set (W : Nat) (C : Cursor) (v p : Nat) : Nat :=
  v ||| C.mask W p

/-- Embedding of `Atomic::invert` from `src/atomic.rs`:
`self.fetch_xor(*C::mask(bit), Ordering::Relaxed)`. -/
def invert (W : Nat) (C : Cursor) (v p : Nat) : Nat :=
  v ^^^ C.mask W p

/-- Embedding of `Atomic::get` from `src/atomic.rs`:
`self.load(Ordering::Relaxed)` returns the full element value. -/
def get (v : Nat) : Nat :=
  v

end Atomic

/-- C4: for every storage element value, Cursor policy and bit index,
`Atomic::invert` is exactly the bitwise XOR of the element with the cursor
mask, and applying it twice with no intervening writes restores the original
element value. -/
theorem invert_is_xor_and_involutive (W : Nat) (C : Cursor) (v p : Nat) :
    Atomic.invert W C v p = v ^^^ C.mask W p ∧
    Atomic.invert W C (Atomic.invert W C v p) p = v :=
  ⟨rfl, Nat.xor_cancel_right _ _⟩

/-- C9: at the element-value level, `Atomic::set` and `Atomic::clear` are
idempotent — applying either twice at the same bit index leaves the element
exactly as applying it once. -/
theorem set_clear_idempotent (W : Nat) (C : Cursor) (v p : Nat) :
    Atomic.set W C (Atomic.set W C v p) p = Atomic.set W C v p ∧
    Atomic.clear W C (Atomic.clear W C v p) p = Atomic.clear W C v p := by
  constructor
  · simp [Atomic.set, Nat.or_assoc, Nat.or_self]
  · simp [Atomic.clear, Nat.and_assoc, Nat.and_self]

/-- Bits at or above the element width are zero in any in-range element
value. -/
theorem testBit_eq_false_of_width_le {v W j : Nat} (hv : v < 2 ^ W)
    (hj : W ≤ j) : v.testBit j = false :=
  Nat.testBit_lt_two_pow
    (lt_of_lt_of_le hv (Nat.pow_le_pow_right (by norm_num) hj))

/-- C2: `Atomic::clear(p)` is exactly the bitwise AND of the element with the
complement of the cursor mask, and a subsequent `get()` shows the masked bit
as 0 with every other bit unchanged. -/
theorem clear_is_and_not_mask (W : Nat) (C : Cursor) (v p k : Nat)
    (hv : v < 2 ^ W) (hk : k < W) (hm : C.mask W p = 2 ^ k) :
    Atomic.clear W C v p = v &&& (C.mask W p ^^^ (2 ^ W - 1)) ∧
    (Atomic.get (Atomic.clear W C v p)).testBit k = false ∧
    ∀ j, j ≠ k → (Atomic.get (Atomic.clear W C v p)).testBit j = v.testBit j := by
  refine ⟨rfl, ?_, ?_⟩
  · simp [Atomic.clear, Atomic.get, hm, Nat.testBit_land, Nat.testBit_xor,
      Nat.testBit_two_pow_self, Nat.testBit_two_pow_sub_one, hk]
  · intro j hj
    by_cases hjW : j < W
    · simp [Atomic.clear, Atomic.get, hm, Nat.testBit_land, Nat.testBit_xor,
        Nat.testBit_two_pow_of_ne (Ne.symm hj), Nat.testBit_two_pow_sub_one,
        hjW]
    · simp [Atomic.clear, Atomic.get, hm, Nat.testBit_land, Nat.testBit_xor,
        Nat.testBit_two_pow_of_ne (Ne.symm hj), Nat.testBit_two_pow_sub_one,
        hjW, testBit_eq_false_of_width_le hv (le_of_not_lt hjW)]

/-- Witness for C2 at width 8, LSB-first cursor, element value 178, bit 1. -/
theorem clear_is_and_not_mask_witness :
    (178 : Nat) < 2 ^ 8 ∧ (1 : Nat) < 8 ∧ LittleEndian.mask 8 1 = 2 ^ 1 ∧
    (Atomic.clear 8 LittleEndian 178 1 =
        178 &&& (LittleEndian.mask 8 1 ^^^ (2 ^ 8 - 1)) ∧
      (Atomic.get (Atomic.clear 8 LittleEndian 178 1)).testBit 1 = false ∧
      ∀ j, j ≠ 1 →
        (Atomic.get (Atomic.clear 8 LittleEndian 178 1)).testBit j =
          (178 : Nat).testBit j) :=
  ⟨by decide, by decide, by decide,
    clear_is_and_not_mask 8 LittleEndian 178 1 1 (by decide) (by decide)
      (by decide)⟩

/-- C3: `Atomic::set(p)` is exactly the bitwise OR of the element with the
cursor mask, and a subsequent `get()` shows the masked bit as 1 with every
other bit unchanged. -/
theorem set_is_or_mask (W : Nat) (C : Cursor) (v p k : Nat)
    (hv : v < 2 ^ W) (hk : k < W) (hm : C.mask W p = 2 ^ k) :
    Atomic.set W C v p = v ||| C.mask W p ∧
    (Atomic.get (Atomic.set W C v p)).testBit k = true ∧
    ∀ j, j ≠ k → (Atomic.get (Atomic.set W C v p)).testBit j = v.testBit j := by
  refine ⟨rfl, ?_, ?_⟩
  · simp [Atomic.set, Atomic.get, hm, Nat.testBit_lor, Nat.testBit_two_pow_self]
  · intro j hj
    simp [Atomic.set, Atomic.get, hm, Nat.testBit_lor,
      Nat.testBit_two_pow_of_ne (Ne.symm hj)]

/-- Witness for C3 at width 8, MSB-first cursor, element value 5, bit 2. -/
theorem set_is_or_mask_witness :
    (5 : Nat) < 2 ^ 8 ∧ (5 : Nat) < 8 ∧ BigEndian.mask 8 2 = 2 ^ 5 ∧
    (Atomic.set 8 BigEndian 5 2 = 5 ||| BigEndian.mask 8 2 ∧
      (Atomic.get (Atomic.set 8 BigEndian 5 2)).testBit 5 = true ∧
      ∀ j, j ≠ 5 →
        (Atomic.get (Atomic.set 8 BigEndian 5 2)).testBit j =
          (5 : Nat).testBit j) :=
  ⟨by decide, by decide, by decide,
    set_is_or_mask 8 BigEndian 5 2 5 (by decide) (by decide) (by decide)⟩

/-- C5: for a valid bit index, the four atomic operations are total functions
on in-range element values: `get` returns the full element value, and each of
`clear`, `set`, `invert` always yields an in-range element value — no
failure, no partial result, no retry. -/
theorem atomic_ops_total (W : Nat) (C : Cursor) (v p k : Nat)
    (hv : v < 2 ^ W) (hk : k < W) (hm : C.mask W p = 2 ^ k) :
    Atomic.get v = v ∧
    Atomic.clear W C v p < 2 ^ W ∧
    Atomic.set W C v p < 2 ^ W ∧
    Atomic.invert W C v p < 2 ^ W := by
  have hmlt : C.mask W p < 2 ^ W := by
    rw [hm]
    exact Nat.pow_lt_pow_of_lt (by norm_num) hk
  have hsub : 2 ^ W - 1 < 2 ^ W := Nat.sub_lt (Nat.two_pow_pos W) (by norm_num)
  exact ⟨rfl, Nat.and_lt_two_pow v (Nat.xor_lt_two_pow hmlt hsub),
    Nat.or_lt_two_pow hv hmlt, Nat.xor_lt_two_pow hv hmlt⟩

/-- Witness for C5 at width 16, LSB-first cursor, element value 43690,
bit 9. -/
theorem atomic_ops_total_witness :
    (43690 : Nat) < 2 ^ 16 ∧ (9 : Nat) < 16 ∧
    LittleEndian.mask 16 9 = 2 ^ 9 ∧
    (Atomic.get 43690 = 43690 ∧
      Atomic.clear 16 LittleEndian 43690 9 < 2 ^ 16 ∧
      Atomic.set 16 LittleEndian 43690 9 < 2 ^ 16 ∧
      Atomic.invert 16 LittleEndian 43690 9 < 2 ^ 16) :=
  ⟨by decide, by decide, by decide,
    atomic_ops_total 16 LittleEndian 43690 9 9 (by decide) (by decide)
      (by decide)⟩

/-- Powers of two at distinct exponents are distinct masks. -/
theorem two_pow_ne_of_ne {a b : Nat} (h : a ≠ b) : 2 ^ a ≠ 2 ^ b :=
  fun he => h (Nat.pow_right_injective (by norm_num) he)

/-- C6: for every supported width `W ∈ {8, 16, 32, 64}`, each cursor policy
maps every position `p < W` to a mask with exactly one bit set, distinct
positions map to distinct masks, and every bit of the element is reachable —
the position-to-mask map is a bijection onto the single-bit masks, for the
LSB-first and the MSB-first policy independently. -/
theorem cursor_mask_bijection (W : Nat)
    (hW : W = 8 ∨ W = 16 ∨ W = 32 ∨ W = 64) :
    (∀ p, p < W → ∃ k, k < W ∧ LittleEndian.mask W p = 2 ^ k) ∧
    (∀ p1, p1 < W → ∀ p2, p2 < W → p1 ≠ p2 →
      LittleEndian.mask W p1 ≠ LittleEndian.mask W p2) ∧
    (∀ k, k < W → ∃ p, p < W ∧ LittleEndian.mask W p = 2 ^ k) ∧
    (∀ p, p < W → ∃ k, k < W ∧ BigEndian.mask W p = 2 ^ k) ∧
    (∀ p1, p1 < W → ∀ p2, p2 < W → p1 ≠ p2 →
      BigEndian.mask W p1 ≠ BigEndian.mask W p2) ∧
    (∀ k, k < W → ∃ p, p < W ∧ BigEndian.mask W p = 2 ^ k) := by
  have hW0 : 0 < W := by rcases hW with h | h | h | h <;> omega
  refine ⟨?_, ?_, ?_, ?_, ?_, ?_⟩
  · intro p hp
    exact ⟨p, hp, rfl⟩
  · intro p1 _ p2 _ hne
    exact two_pow_ne_of_ne hne
  · intro k hk
    exact ⟨k, hk, rfl⟩
  · intro p hp
    exact ⟨W - 1 - p, by omega, rfl⟩
  · intro p1 h1 p2 h2 hne
    exact two_pow_ne_of_ne (by omega)
  · intro k hk
    refine ⟨W - 1 - k, by omega, ?_⟩
    show 2 ^ (W - 1 - (W - 1 - k)) = 2 ^ k
    congr 1
    omega

/-- Witness for C6 at width 8. -/
theorem cursor_mask_bijection_witness :
    ((8 : Nat) = 8 ∨ (8 : Nat) = 16 ∨ (8 : Nat) = 32 ∨ (8 : Nat) = 64) ∧
    ((∀ p, p < 8 → ∃ k, k < 8 ∧ LittleEndian.mask 8 p = 2 ^ k) ∧
      (∀ p1, p1 < 8 → ∀ p2, p2 < 8 → p1 ≠ p2 →
        LittleEndian.mask 8 p1 ≠ LittleEndian.mask 8 p2) ∧
      (∀ k, k < 8 → ∃ p, p < 8 ∧ LittleEndian.mask 8 p = 2 ^ k) ∧
      (∀ p, p < 8 → ∃ k, k < 8 ∧ BigEndian.mask 8 p = 2 ^ k) ∧
      (∀ p1, p1 < 8 → ∀ p2, p2 < 8 → p1 ≠ p2 →
        BigEndian.mask 8 p1 ≠ BigEndian.mask 8 p2) ∧
      (∀ k, k < 8 → ∃ p, p < 8 ∧ BigEndian.mask 8 p = 2 ^ k)) :=
  ⟨Or.inl rfl, cursor_mask_bijection 8 (Or.inl rfl)⟩

/-- C10: two atomic operations aimed at bit indices whose cursor masks differ
(hence at disjoint single-bit masks of one element) commute sequentially: for
any two operations drawn from set, clear, invert, applying them at `p1` and
`p2` in either order yields the same final element value. -/
theorem distinct_bits_commute (W : Nat) (C : Cursor) (v p1 p2 k1 k2 : Nat)
    (hk1 : k1 < W) (hk2 : k2 < W)
    (hm1 : C.mask W p1 = 2 ^ k1) (hm2 : C.mask W p2 = 2 ^ k2)
    (hne : C.mask W p1 ≠ C.mask W p2) :
    (Atomic.set W C (Atomic.set W C v p1) p2 =
      Atomic.set W C (Atomic.set W C v p2) p1) ∧
    (Atomic.clear W C (Atomic.set W C v p1) p2 =
      Atomic.set W C (Atomic.clear W C v p2) p1) ∧
    (Atomic.invert W C (Atomic.set W C v p1) p2 =
      Atomic.set W C (Atomic.invert W C v p2) p1) ∧
    (Atomic.set W C (Atomic.clear W C v p1) p2 =
      Atomic.clear W C (Atomic.set W C v p2) p1) ∧
    (Atomic.clear W C (Atomic.clear W C v p1) p2 =
      Atomic.clear W C (Atomic.clear W C v p2) p1) ∧
    (Atomic.invert W C (Atomic.clear W C v p1) p2 =
      Atomic.clear W C (Atomic.invert W C v p2) p1) ∧
    (Atomic.set W C (Atomic.invert W C v p1) p2 =
      Atomic.invert W C (Atomic.set W C v p2) p1) ∧
    (Atomic.clear W C (Atomic.invert W C v p1) p2 =
      Atomic.invert W C (Atomic.clear W C v p2) p1) ∧
    (Atomic.invert W C (Atomic.invert W C v p1) p2 =
      Atomic.invert W C (Atomic.invert W C v p2) p1) := by
  have hkne : k1 ≠ k2 := fun h => hne (by rw [hm1, hm2, h])
  refine ⟨?_, ?_, ?_, ?_, ?_, ?_, ?_, ?_, ?_⟩ <;>
  · simp only [Atomic.set, Atomic.clear, Atomic.invert, hm1, hm2]
    apply Nat.eq_of_testBit_eq
    intro j
    simp only [Nat.testBit_lor, Nat.testBit_land, Nat.testBit_xor,
      Nat.testBit_two_pow, Nat.testBit_two_pow_sub_one]
    by_cases h1 : k1 = j <;> by_cases h2 : k2 = j <;> simp_all

/-- Witness for C10 at width 8, LSB-first cursor, element value 178, bits 0
and 1. -/
theorem distinct_bits_commute_witness :
    (0 : Nat) < 8 ∧ (1 : Nat) < 8 ∧
    LittleEndian.mask 8 0 = 2 ^ 0 ∧ LittleEndian.mask 8 1 = 2 ^ 1 ∧
    LittleEndian.mask 8 0 ≠ LittleEndian.mask 8 1 ∧
    ((Atomic.set 8 LittleEndian (Atomic.set 8 LittleEndian 178 0) 1 =
        Atomic.set 8 LittleEndian (Atomic.set 8 LittleEndian 178 1) 0) ∧
      (Atomic.clear 8 LittleEndian (Atomic.set 8 LittleEndian 178 0) 1 =
        Atomic.set 8 LittleEndian (Atomic.clear 8 LittleEndian 178 1) 0) ∧
      (Atomic.invert 8 LittleEndian (Atomic.set 8 LittleEndian 178 0) 1 =
        Atomic.set 8 LittleEndian (Atomic.invert 8 LittleEndian 178 1) 0) ∧
      (Atomic.set 8 LittleEndian (Atomic.clear 8 LittleEndian 178 0) 1 =
        Atomic.clear 8 LittleEndian (Atomic.set 8 LittleEndian 178 1) 0) ∧
      (Atomic.clear 8 LittleEndian (Atomic.clear 8 LittleEndian 178 0) 1 =
        Atomic.clear 8 LittleEndian (Atomic.clear 8 LittleEndian 178 1) 0) ∧
      (Atomic.invert 8 LittleEndian (Atomic.clear 8 LittleEndian 178 0) 1 =
        Atomic.clear 8 LittleEndian (Atomic.invert 8 LittleEndian 178 1) 0) ∧
      (Atomic.set 8 LittleEndian (Atomic.invert 8 LittleEndian 178 0) 1 =
        Atomic.invert 8 LittleEndian (Atomic.set 8 LittleEndian 178 1) 0) ∧
      (Atomic.clear 8 LittleEndian (Atomic.invert 8 LittleEndian 178 0) 1 =
        Atomic.invert 8 LittleEndian (Atomic.clear 8 LittleEndian 178 1) 0) ∧
      (Atomic.invert 8 LittleEndian (Atomic.invert 8 LittleEndian 178 0) 1 =
        Atomic.invert 8 LittleEndian (Atomic.invert 8 LittleEndian 178 1) 0)) :=
  ⟨by decide, by decide, by decide, by decide, by decide,
    distinct_bits_commute 8 LittleEndian 178 0 1 0 1 (by decide) (by decide)
      (by decide) (by decide) (by decide)⟩

/-- An individual caller intent on one shared storage element: set, clear or
invert one bit through the atomic path. -/
inductive Intent where
  | set (p : Nat)
  | clear (p : Nat)
  | invert (p : Nat)
  deriving DecidableEq

/-- Effect of one intent on the shared element.  Each of the
`fetch_and` / `fetch_or` / `fetch_xor` calls is a single indivisible
read-modify-write of the whole element, so one intent is one step. -/
def applyIntent (W : Nat) (C : Cursor) (v : Nat) : Intent → Nat
  | .set p => Atomic.set W C v p
  | .clear p => Atomic.clear W C v p
  | .invert p => Atomic.invert W C v p

/-- Bitwise composition of a serialized list of intents, applied in order to
an initial element value. -/
def applyAll (W : Nat) (C : Cursor) (v : Nat) (l : List Intent) : Nat :=
  l.foldl (applyIntent W C) v

/-- An interleaving of the per-caller intent lists: at every step the shared
element executes the next pending intent of one caller, preserving the program order of each
caller. -/
inductive Interleaving : List (List Intent) → List Intent → Prop where
  | done (ts : List (List Intent)) :
      (∀ t ∈ ts, t = []) → Interleaving ts []
  | step (ts : List (List Intent)) (i : Nat) (x : Intent) (xs : List Intent)
      (out : List Intent) :
      ts[i]? = some (x :: xs) → Interleaving (ts.set i xs) out →
      Interleaving ts (x :: out)

/-- C1: any number of concurrent callers applying set/clear/invert through
the atomic path to possibly-overlapping bits of one shared element: under any
interleaving, the final element value equals the bitwise composition of all
intents under some valid serialization (an order preserving the program order of every
caller), no update is lost, and every read performed at any point
observes the whole composed value of the intents executed so far — never a
torn or partially-applied element value. -/
theorem atomic_no_lost_updates (W : Nat) (C : Cursor)
    (threads : List (List Intent)) (l : List Intent) (init : Nat)
    (h : Interleaving threads l) :
    ∃ s, Interleaving threads s ∧
      applyAll W C init l = applyAll W C init s ∧
      ∀ pre suf, l = pre ++ suf →
        Atomic.get (applyAll W C init pre) = applyAll W C init pre :=
  ⟨l, h, rfl, fun _ _ _ => rfl⟩

/-- Witness for C1: two callers, one setting bit 0 and one clearing bit 1 of
a shared 8-bit element. -/
theorem atomic_no_lost_updates_witness :
    Interleaving [[Intent.set 0], [Intent.clear 1]]
      [Intent.clear 1, Intent.set 0] ∧
    ∃ s, Interleaving [[Intent.set 0], [Intent.clear 1]] s ∧
      applyAll 8 LittleEndian 2 [Intent.clear 1, Intent.set 0] =
        applyAll 8 LittleEndian 2 s ∧
      ∀ pre suf, [Intent.clear 1, Intent.set 0] = pre ++ suf →
        Atomic.get (applyAll 8 LittleEndian 2 pre) =
          applyAll 8 LittleEndian 2 pre := by
  have hI : Interleaving [[Intent.set 0], [Intent.clear 1]]
      [Intent.clear 1, Intent.set 0] := by
    refine Interleaving.step _ 1 (Intent.clear 1) [] _ rfl ?_
    refine Interleaving.step _ 0 (Intent.set 0) [] _ rfl ?_
    exact Interleaving.done _ (by simp)
  exact ⟨hI, atomic_no_lost_updates 8 LittleEndian _ _ 2 hI⟩

/-- Modelled from the spec: packing of up to eight logical bits (declared
order, MSB-first as in the serialization example) into one raw 8-bit storage
element; unused trailing bit positions hold zero. -/
def encodeByte (bs : List Bool) : Nat :=
  bs.foldl (fun a b => 2 * a + cond b 1 0) 0 * 2 ^ (8 - bs.length)

/-- Modelled from the spec: unpacking of one raw 8-bit storage element into
its eight logical bits in declared (MSB-first) order. -/
def decodeByte (n : Nat) : List Bool :=
  [n.testBit 7, n.testBit 6, n.testBit 5, n.testBit 4,
    n.testBit 3, n.testBit 2, n.testBit 1, n.testBit 0]

/-- Modelled from the spec: the ordered raw storage elements covering a bit
sequence, eight bits per element, the last element padded with zeros. -/
def encodeData : List Bool → List Nat
  | [] => []
  | b0 :: b1 :: b2 :: b3 :: b4 :: b5 :: b6 :: b7 :: rest =>
      encodeByte [b0, b1, b2, b3, b4, b5, b6, b7] :: encodeData rest
  | bs => [encodeByte bs]

/-- Modelled from the spec: the external representation of a bit sequence is
the triple `{head, bits, data}`. -/
structure BitRepr where
  head : Nat
  bits : Nat
  data : List Nat
  deriving DecidableEq

/-- Modelled from the spec: `encode` emits offset 0, the live-bit count, and
the covering raw elements in declared cursor order. -/
def encode (s : List Bool) : BitRepr :=
  ⟨0, s.length, encodeData s⟩

/-- Modelled from the spec: `decode` rejects `head` at or beyond the element
width and a `bits` count inconsistent with the length of `data`; otherwise it
reproduces the live bits from the raw elements in declared cursor order. -/
def decode (x : BitRepr) : Option (List Bool) :=
  if x.head < 8 ∧ x.head + x.bits ≤ 8 * x.data.length then
    some ((((x.data.map decodeByte).flatten).drop x.head).take x.bits)
  else none

/-- Unpacking a full packed chunk of eight bits reproduces the chunk. -/
theorem decodeByte_encodeByte_full (b0 b1 b2 b3 b4 b5 b6 b7 : Bool) :
    decodeByte (encodeByte [b0, b1, b2, b3, b4, b5, b6, b7]) =
      [b0, b1, b2, b3, b4, b5, b6, b7] := by
  revert b0 b1 b2 b3 b4 b5 b6 b7
  decide

/-- Unpacking a packed partial chunk reproduces the chunk followed by zero
padding. -/
theorem decodeByte_encodeByte_small (bs : List Bool) (h : bs.length < 8) :
    decodeByte (encodeByte bs) = bs ++ List.replicate (8 - bs.length) false := by
  match bs with
  | [] => decide
  | [b0] => revert b0; decide
  | [b0, b1] => revert b0 b1; decide
  | [b0, b1, b2] => revert b0 b1 b2; decide
  | [b0, b1, b2, b3] => revert b0 b1 b2 b3; decide
  | [b0, b1, b2, b3, b4] => revert b0 b1 b2 b3 b4; decide
  | [b0, b1, b2, b3, b4, b5] => revert b0 b1 b2 b3 b4 b5; decide
  | [b0, b1, b2, b3, b4, b5, b6] => revert b0 b1 b2 b3 b4 b5 b6; decide
  | b0 :: b1 :: b2 :: b3 :: b4 :: b5 :: b6 :: b7 :: rest =>
      exact absurd h (by simp)

/-- Core round-trip invariant: the packed elements cover the sequence, and
unpacking them and truncating to the live-bit count reproduces the
sequence. -/
theorem encodeData_roundtrip :
    ∀ (n : Nat) (s : List Bool), s.length ≤ n →
    s.length ≤ 8 * (encodeData s).length ∧
    ((encodeData s).map decodeByte).flatten.take s.length = s := by
  intro n
  induction n with
  | zero =>
      intro s hs
      have hnil : s = [] := by
        cases s with
        | nil => rfl
        | cons a t => simp at hs
      subst hnil
      simp [encodeData]
  | succ n ih =>
      intro s hs
      match s with
      | [] => simp [encodeData]
      | b0 :: b1 :: b2 :: b3 :: b4 :: b5 :: b6 :: b7 :: rest =>
          have hr : rest.length ≤ n := by
            simp only [List.length_cons] at hs
            omega
          obtain ⟨ih1, ih2⟩ := ih rest hr
          constructor
          · simp only [encodeData, List.length_cons]
            omega
          · simp only [encodeData, List.map_cons, List.flatten_cons,
              decodeByte_encodeByte_full, List.length_cons]
            rw [List.take_append_eq_append_take]
            have h1 : (rest.length + 1 + 1 + 1 + 1 + 1 + 1 + 1 + 1) -
                ([b0, b1, b2, b3, b4, b5, b6, b7] : List Bool).length =
                rest.length := by simp
            have h2 : ([b0, b1, b2, b3, b4, b5, b6, b7] : List Bool).take
                (rest.length + 1 + 1 + 1 + 1 + 1 + 1 + 1 + 1) =
                [b0, b1, b2, b3, b4, b5, b6, b7] :=
              List.take_of_length_le (by simp)
            rw [h1, h2, ih2]
            simp
      | [b0] =>
          refine ⟨by simp [encodeData], ?_⟩
          have h8 : ([b0] : List Bool).length < 8 := by simp
          simp [encodeData, decodeByte_encodeByte_small _ h8]
      | [b0, b1] =>
          refine ⟨by simp [encodeData], ?_⟩
          have h8 : ([b0, b1] : List Bool).length < 8 := by simp
          simp [encodeData, decodeByte_encodeByte_small _ h8]
      | [b0, b1, b2] =>
          refine ⟨by simp [encodeData], ?_⟩
          have h8 : ([b0, b1, b2] : List Bool).length < 8 := by simp
          simp [encodeData, decodeByte_encodeByte_small _ h8]
      | [b0, b1, b2, b3] =>
          refine ⟨by simp [encodeData], ?_⟩
          have h8 : ([b0, b1, b2, b3] : List Bool).length < 8 := by simp
          simp [encodeData, decodeByte_encodeByte_small _ h8]
      | [b0, b1, b2, b3, b4] =>
          refine ⟨by simp [encodeData], ?_⟩
          have h8 : ([b0, b1, b2, b3, b4] : List Bool).length < 8 := by simp
          simp [encodeData, decodeByte_encodeByte_small _ h8]
      | [b0, b1, b2, b3, b4, b5] =>
          refine ⟨by simp [encodeData], ?_⟩
          have h8 : ([b0, b1, b2, b3, b4, b5] : List Bool).length < 8 := by
            simp
          simp [encodeData, decodeByte_encodeByte_small _ h8]
      | [b0, b1, b2, b3, b4, b5, b6] =>
          refine ⟨by simp [encodeData], ?_⟩
          have h8 : ([b0, b1, b2, b3, b4, b5, b6] : List Bool).length < 8 := by
            simp
          simp [encodeData, decodeByte_encodeByte_small _ h8]

/-- C7: encoding the 8 live bits `1,0,1,1,0,0,1,0` (declared order, bit 0
first) of one 8-bit storage element produces exactly the external
representation with `head` 0, `bits` 8 and `data` `[178]`. -/
theorem serdes_encode_example :
    encode [true, false, true, true, false, false, true, false] =
      BitRepr.mk 0 8 [178] := by
  decide

/-- C8: for every bit sequence, decoding the encoding reproduces the sequence
bit-for-bit under the same declared cursor order. -/
theorem decode_encode_roundtrip (s : List Bool) :
    decode (encode s) = some s := by
  obtain ⟨h1, h2⟩ := encodeData_roundtrip s.length s (Nat.le_refl _)
  simp only [decode, encode]
  rw [if_pos ⟨by norm_num, by simpa using h1⟩]
  simp [h2]
